import Mathlib

/-!
Verification of the iOSAppMonitor record-correlation and release-reconciliation
engine.  The Python sources are embedded shallowly:

* `PyValue` models the dynamically typed Feishu field values (None, bool, int,
  str, list, dict) that `monitor_apple.py` and `services/feishu_service.py`
  inspect; truthiness and the str() coercion are made explicit.
* `ApplePackageRecord` models the dataclass of `model.py` (fields that are only
  printed and never read by the embedded functions are omitted).
* `get_latest_version` embeds `ApplePackageRecord.get_latest_version`.
* `update_app_status` embeds `FeishuBitableMonitor.update_app_status` as the
  list of field-write operations it issues, in order.
* `processRecord` embeds the per-record body of the loop at the end of
  `monitor_apple.main`, with the external Apple-store lookup supplied as data.
* `isCandidateMain` / `childrenOf` embed the main-record filter and the
  child-attachment scan of `FeishuBitableMonitor.get_records_by_status`;
  `strictAttach` embeds the stricter variant in
  `FeishuBitableService.get_records_by_status`.
* `message_content_parts` embeds the rich-text content construction shared by
  `FeishuMessenger.send_message` and `FeishuBitableMonitor.send_feishu_message`.
-/

/-- A dynamically typed Python value as it occurs in Feishu record fields.
Dicts are modelled as association lists with distinct keys. -/
inductive PyValue where
  | none
  | bool (b : Bool)
  | int (n : Int)
  | str (s : String)
  | list (xs : List PyValue)
  | dict (d : List (String × PyValue))

/-- Python truthiness of a `PyValue` (`bool(x)`). -/
def pyTruthy : PyValue → Bool
  | .none => false
  | .bool b => b
  | .int n => n != 0
  | .str s => s != ""
  | .list xs => !xs.isEmpty
  | .dict d => !d.isEmpty

mutual

/-- Python `repr` of a value (scalar cases exact; string escaping inside
quotes is not modelled, which no embedded computation depends on). -/
def pyRepr : PyValue → String
  | .none => "None"
  | .bool b => if b then "True" else "False"
  | .int n => toString n
  | .str s => "\x27" ++ s ++ "\x27"
  | .list xs => "[" ++ String.intercalate ", " (pyReprList xs) ++ "]"
  | .dict d => "\x7b" ++ String.intercalate ", " (pyReprDict d) ++ "\x7d"

/-- `repr` of each element of a list. -/
def pyReprList : List PyValue → List String
  | [] => []
  | x :: xs => pyRepr x :: pyReprList xs

/-- `repr` of each key/value pair of a dict. -/
def pyReprDict : List (String × PyValue) → List String
  | [] => []
  | (k, v) :: xs => ("\x27" ++ k ++ "\x27: " ++ pyRepr v) :: pyReprDict xs

end

/-- Python `str(x)`: the string itself for strings, `repr`-style otherwise. -/
def pyStr : PyValue → String
  | .str s => s
  | v => pyRepr v

/-- Dict lookup, `d.get(k)` (returns `Option`; `None`-valued keys still
report the key as present, as in Python). -/
def lookupKey (d : List (String × PyValue)) (k : String) : Option PyValue :=
  (d.find? (fun kv => kv.1 == k)).map (fun kv => kv.2)

/-- Python `k in d` for a dict. -/
def hasKey (d : List (String × PyValue)) (k : String) : Bool :=
  (lookupKey d k).isSome

/-- Whether `m` occurs as a contiguous sublist of `s`. -/
def charsInfix (m : List Char) : List Char → Bool
  | [] => m.isPrefixOf []
  | c :: t => m.isPrefixOf (c :: t) || charsInfix m t

/-- Python `m in v` for the container shapes the scanned data can hold:
list membership (string elements only can equal a string), substring test
for strings, key membership for dicts.  On the remaining scalar shapes
Python would raise `TypeError`; those shapes never occur in the scanned
`record_ids` data and are modelled as a non-match. -/
def pyContains (v : PyValue) (m : String) : Bool :=
  match v with
  | .list xs => xs.any (fun x => match x with | .str s => s == m | _ => false)
  | .str s => charsInfix m.toList s.toList
  | .dict d => d.any (fun kv => kv.1 == m)
  | _ => false

/-- A raw Feishu row: `{'record_id': ..., 'fields': ...}` as collected by
`get_all_records`. -/
structure RawRow where
  id : String
  fields : List (String × PyValue)

/-- The `ApplePackageRecord` dataclass of `model.py`, restricted to the fields
that the embedded functions read (the remaining fields are only printed or
stored).  `children` holds the version records attached by the hierarchy
resolver; the resolver only ever fills one level. -/
inductive ApplePackageRecord where
  | mk (apple_id : Option Int)
       (package_name : Option String)
       (package_status : Option String)
       (version : Option String)
       (stage : Option String)
       (submission_time : Option Int)
       (approval_time : Option Int)
       (record_id : Option String)
       (children : List ApplePackageRecord)

namespace ApplePackageRecord

/-- Field accessor. -/
def apple_id : ApplePackageRecord → Option Int
  | mk a _ _ _ _ _ _ _ _ => a

/-- Field accessor. -/
def package_name : ApplePackageRecord → Option String
  | mk _ p _ _ _ _ _ _ _ => p

/-- Field accessor. -/
def package_status : ApplePackageRecord → Option String
  | mk _ _ p _ _ _ _ _ _ => p

/-- Field accessor. -/
def version : ApplePackageRecord → Option String
  | mk _ _ _ v _ _ _ _ _ => v

/-- Field accessor. -/
def stage : ApplePackageRecord → Option String
  | mk _ _ _ _ s _ _ _ _ => s

/-- Field accessor. -/
def submission_time : ApplePackageRecord → Option Int
  | mk _ _ _ _ _ t _ _ _ => t

/-- Field accessor. -/
def approval_time : ApplePackageRecord → Option Int
  | mk _ _ _ _ _ _ t _ _ => t

/-- Field accessor. -/
def record_id : ApplePackageRecord → Option String
  | mk _ _ _ _ _ _ _ r _ => r

/-- Field accessor. -/
def children : ApplePackageRecord → List ApplePackageRecord
  | mk _ _ _ _ _ _ _ _ c => c

end ApplePackageRecord

/-- Python truthiness of an `Optional[int]` (`None` and `0` are falsy). -/
def pyTruthyOptInt : Option Int → Bool
  | none => false
  | some n => n != 0

/-- Python truthiness of an `Optional[str]` (`None` and `""` are falsy). -/
def pyTruthyOptStr : Option String → Bool
  | none => false
  | some s => s != ""

/-- One step of the scan in `ApplePackageRecord.get_latest_version`: the
Python loop keeps `(latest_child, latest_time)`, replacing them when
`child.submission_time` is truthy and exceeds `latest_time`. -/
def latest_step (acc : Option ApplePackageRecord × Int) (child : ApplePackageRecord) :
    Option ApplePackageRecord × Int :=
  match child.submission_time with
  | some t => if t ≠ 0 ∧ acc.2 < t then (some child, t) else acc
  | none => acc

/-- `ApplePackageRecord.get_latest_version` of `model.py`: with no children,
the record's own version; otherwise the scan above starting from
`(None, 0)`, returning the selected child's version when that child exists
and its version is truthy, and falling back to the record's own version
otherwise. -/
def get_latest_version (r : ApplePackageRecord) : Option String :=
  if r.children.isEmpty then r.version
  else
    match (r.children.foldl latest_step (none, 0)).1 with
    | some c =>
      match c.version with
      | some v => if v = "" then r.version else some v
      | none => r.version
    | none => r.version

/-- Submission time with Python falsy default 0, used to state bounds. -/
def subD (x : ApplePackageRecord) : Int := x.submission_time.getD 0

/-- A value written back to a Feishu field (the update dicts of
`update_app_status` only hold strings and millisecond timestamps). -/
inductive FieldValue where
  | str (s : String)
  | int (n : Int)
deriving DecidableEq

/-- An update dict passed to `update_record_fields`. -/
abbrev Fields := List (String × FieldValue)

/-- Whether an update dict sets the key `k`. -/
def fields_set_key (fs : Fields) (k : String) : Bool :=
  fs.any (fun kv => kv.1 == k)

/-- `FeishuBitableMonitor.update_app_status`, embedded as the ordered list of
`(record_id, fields)` write operations it hands to `update_record_fields`.
With children present, the first child whose version equals
`latest_version` (if any) receives status plus approval time, and the main
record receives status only; with no children the main record receives both
in one write. -/
def update_app_status (r : ApplePackageRecord) (latest_version : String) (ts : Int) :
    List (Option String × Fields) :=
  let update_child_fields : Fields :=
    [("包状态", .str "已发布"), ("过审时间", .int ts)]
  if r.children.isEmpty then
    [(r.record_id, [("包状态", .str "已发布"), ("过审时间", .int ts)])]
  else
    match r.children.find? (fun c => c.version == some latest_version) with
    | some target =>
        [(target.record_id, update_child_fields),
         (r.record_id, [("包状态", .str "已发布")])]
    | none => [(r.record_id, [("包状态", .str "已发布")])]

/-- The dict returned by `query_apple_app_status` on success (fields that are
only printed are kept as optional strings). -/
structure AppleAppStatus where
  is_online : Bool
  version : Option String
  track_name : Option String := none
  release_date : Option String := none
  current_version_release_date : Option String := none
  bundle_id : Option String := none
  track_view_url : Option String := none
deriving DecidableEq

/-- The decision taken for one record, following the three observable paths
of the loop in `main`: the early `continue` (skip), the
not-online/not-matching path (await release), and the release path. -/
inductive ReconciliationDecision where
  | skip
  | awaitRelease
  | release
deriving DecidableEq

/-- Observable outcome of processing one record in `main`: the decision, the
field writes issued, and whether the notification fan-out was invoked. -/
structure RecordOutcome where
  decision : ReconciliationDecision
  writes : List (Option String × Fields)
  notified : Bool
deriving DecidableEq

/-- The body of the per-record loop at the end of `main` in
`monitor_apple.py`.  The external lookup result is passed in as data
(`appStatus = none` models a failed lookup).  `continue` paths produce no
writes and no notification; the release path issues the writes of
`update_app_status` and then invokes `send_notifications`. -/
def processRecord (r : ApplePackageRecord) (appStatus : Option AppleAppStatus)
    (ts : Int) : RecordOutcome :=
  if pyTruthyOptInt r.apple_id then
    match get_latest_version r with
    | none => ⟨.skip, [], false⟩
    | some lv =>
      if lv = "" then ⟨.skip, [], false⟩
      else
        let isSelectVersionOnline :=
          match appStatus with
          | some st =>
            st.is_online &&
              (match st.version with
               | some v => v != "" && v == lv
               | none => false)
          | none => false
        if isSelectVersionOnline then ⟨.release, update_app_status r lv ts, true⟩
        else ⟨.awaitRelease, [], false⟩
  else ⟨.skip, [], false⟩

/-- The whole loop of `main` over the filtered records: each record is
processed in turn with its own lookup result; no path aborts the loop
(every failure inside the body is caught and logged in the source). -/
def runRecords (records : List ApplePackageRecord)
    (lookup : ApplePackageRecord → Option AppleAppStatus) (ts : Int) :
    List RecordOutcome :=
  records.map (fun r => processRecord r (lookup r) ts)

/-- The status check of `get_records_by_status` (both variants share it): the
field value — coerced through `str` — must equal the target status, or, for a
list value, the target status must appear among the coerced items. -/
def statusMatch (fields : List (String × PyValue)) (status_field target_status : String) :
    Bool :=
  match lookupKey fields status_field with
  | Option.none => false
  | some (.list xs) => (xs.map pyStr).contains target_status
  | some v => pyStr v == target_status

/-- One parent-reference dict is non-empty when it has a truthy
`record_ids` value or a truthy `text` value (the two checks the inner loop
of the parent-emptiness scan performs before breaking). -/
def parentItemNonEmpty (d : List (String × PyValue)) : Bool :=
  (hasKey d "record_ids" && pyTruthy ((lookupKey d "record_ids").getD .none)) ||
  (hasKey d "text" && pyTruthy ((lookupKey d "text").getD .none))

/-- The scan over the items of a list-valued parent field: empty unless some
dict item is non-empty (non-dict items are ignored, as in the source). -/
def parentListEmptyLoop : List PyValue → Bool
  | [] => true
  | .dict d :: rest =>
      if parentItemNonEmpty d then false else parentListEmptyLoop rest
  | _ :: rest => parentListEmptyLoop rest

/-- The parent-emptiness check of `get_records_by_status`: an absent field, a
`None` or `""` value, or a list whose dict items are all empty. -/
def parentEmpty (fields : List (String × PyValue)) (parent_field : String) : Bool :=
  match lookupKey fields parent_field with
  | Option.none => true
  | some (.list xs) => parentListEmptyLoop xs
  | some .none => true
  | some (.str s) => s == ""
  | some _ => false

/-- The candidate-main-record filter of
`FeishuBitableMonitor.get_records_by_status` (step 2): non-empty fields,
status match, and empty parent reference. -/
def isCandidateMain (row : RawRow) (status_field target_status parent_field : String) :
    Bool :=
  !row.fields.isEmpty &&
    statusMatch row.fields status_field target_status &&
    parentEmpty row.fields parent_field

/-- The inner item scan of the child-attachment step (step 3 of
`FeishuBitableMonitor.get_records_by_status`): the row points at main record
`mid` when some dict item of its parent field has a truthy `record_ids`
value containing `mid` (the loop breaks at the first such item). -/
def itemsPointTo (mid : String) : List PyValue → Bool
  | [] => false
  | .dict d :: rest =>
      let record_ids := (lookupKey d "record_ids").getD (.list [])
      if pyTruthy record_ids && pyContains record_ids mid then true
      else itemsPointTo mid rest
  | _ :: rest => itemsPointTo mid rest

/-- Whether a row is attached as a child of the main record with id `mid`
by `FeishuBitableMonitor.get_records_by_status`: its parent field must be
present, hold a list, and some item must point at `mid`. -/
def rowPointsTo (fields : List (String × PyValue)) (parent_field : String)
    (mid : String) : Bool :=
  match lookupKey fields parent_field with
  | some (.list xs) => itemsPointTo mid xs
  | _ => false

/-- The children attached to the main record with id `mid` (step 3 of
`FeishuBitableMonitor.get_records_by_status`); the source converts each
selected row through `from_feishu_fields`, which we leave at the raw-row
level since the claims only concern which rows are selected. -/
def childrenOf (rows : List RawRow) (parent_field : String) (mid : String) :
    List RawRow :=
  rows.filter (fun r => rowPointsTo r.fields parent_field mid)

/-- The allow-list of the stricter resolver variant in
`FeishuBitableService.get_records_by_status`. -/
def valid_child_statuses : List String := ["提审中", "已发布"]

/-- The child-status check of the stricter variant: a list-valued status is
valid when some coerced item is in the allow-list; a scalar status is valid
when its coercion is truthy and in the allow-list; an absent status field is
invalid. -/
def strictStatusValid (fields : List (String × PyValue)) (status_field : String) : Bool :=
  match lookupKey fields status_field with
  | Option.none => false
  | some (.list xs) => (xs.map pyStr).any (fun s => valid_child_statuses.contains s)
  | some v => pyStr v != "" && valid_child_statuses.contains (pyStr v)

/-- The inner item scan of the stricter variant: at the first dict item whose
truthy `record_ids` contains `mid` the row is attached iff its status is
valid, and the scan stops either way. -/
def strictItems (fields : List (String × PyValue)) (status_field mid : String) :
    List PyValue → Bool
  | [] => false
  | .dict d :: rest =>
      let record_ids := (lookupKey d "record_ids").getD (.list [])
      if pyTruthy record_ids && pyContains record_ids mid then
        strictStatusValid fields status_field
      else strictItems fields status_field mid rest
  | _ :: rest => strictItems fields status_field mid rest

/-- Whether a row is attached as a child by the stricter variant
(`FeishuBitableService.get_records_by_status`, step 3). -/
def strictAttach (row : RawRow) (status_field parent_field mid : String) : Bool :=
  match lookupKey row.fields parent_field with
  | some (.list xs) => strictItems row.fields status_field mid xs
  | _ => false

/-- The children attached to main record `mid` by the stricter variant. -/
def strictChildrenOf (rows : List RawRow) (status_field parent_field mid : String) :
    List RawRow :=
  rows.filter (fun r => strictAttach r status_field parent_field mid)

/-- One element of the rich-text content array built by
`send_feishu_message` and `FeishuMessenger.send_message`. -/
inductive ContentPart where
  | at (user_id : String)
  | text (s : String)
deriving DecidableEq

/-- The fixed message template of `send_feishu_message`. -/
def message_text (app_name stage version : String) : String :=
  app_name ++ " " ++ stage ++ " V" ++ version ++ " 过审并发布了"

/-- The content-part construction shared by `FeishuMessenger.send_message`
and `FeishuBitableMonitor.send_feishu_message`: an at-all pair when
`mention_all` is set, then one at/space pair per mentioned user when
`mention_user_ids` is truthy, then the message body.  The two mention
blocks are guarded by two independent conditionals in the source. -/
def message_content_parts (msgText : String) (mention_all : Bool)
    (mention_user_ids : Option (List String)) : List ContentPart :=
  (if mention_all then [ContentPart.at "all", ContentPart.text " "] else []) ++
  (match mention_user_ids with
   | some ids =>
     if ids.isEmpty then []
     else ids.flatMap (fun u => [ContentPart.at u, ContentPart.text " "])
   | Option.none => []) ++
  [ContentPart.text msgText]

/-- Spec-side reading of claim C5: one parent-reference dict item is empty
when its `record_ids` entry is absent or falsy (null, empty string or empty
list) and its `text` entry is absent or falsy. -/
def DictEntryEmpty (d : List (String × PyValue)) : Prop :=
  (lookupKey d "record_ids" = Option.none ∨
     pyTruthy ((lookupKey d "record_ids").getD .none) = false) ∧
  (lookupKey d "text" = Option.none ∨
     pyTruthy ((lookupKey d "text").getD .none) = false)

/-- Spec-side reading of claim C5: the parent reference is empty when the
parent field is absent, null, an empty string or an empty list, or a list
whose dict items are all empty (an empty list is the vacuous case). -/
def SpecParentEmpty (fields : List (String × PyValue)) (parent_field : String) : Prop :=
  match lookupKey fields parent_field with
  | Option.none => True
  | some .none => True
  | some (.str s) => s = ""
  | some (.list xs) => ∀ d, PyValue.dict d ∈ xs → DictEntryEmpty d
  | some _ => False

/-- Spec-side reading of claim C5: the status-field value equals the target
status, where a list value matches when the target appears among its
items (values compared through their string coercion, as the source
compares `str(value)` against the target). -/
def SpecStatusMatch (fields : List (String × PyValue))
    (status_field target_status : String) : Prop :=
  match lookupKey fields status_field with
  | Option.none => False
  | some (.list xs) => ∃ x ∈ xs, pyStr x = target_status
  | some v => pyStr v = target_status

/-- A parent-reference dict item is skipped by the emptiness scan exactly
when it is empty in the sense of the claim. -/
theorem parentItemNonEmpty_false_iff (d : List (String × PyValue)) :
    parentItemNonEmpty d = false ↔ DictEntryEmpty d := by
  unfold parentItemNonEmpty DictEntryEmpty hasKey
  cases hlk : lookupKey d "record_ids" with
  | none =>
    cases hlk2 : lookupKey d "text" with
    | none => simp
    | some w => simp
  | some v =>
    cases hlk2 : lookupKey d "text" with
    | none => simp
    | some w => simp

/-- The item scan of the parent-emptiness check returns true exactly when
every dict item of the list is empty. -/
theorem parentListEmptyLoop_iff (xs : List PyValue) :
    parentListEmptyLoop xs = true ↔ ∀ d, PyValue.dict d ∈ xs → DictEntryEmpty d := by
  induction xs with
  | nil => simp [parentListEmptyLoop]
  | cons x rest ih =>
    cases x
    case dict d =>
      by_cases hne : parentItemNonEmpty d
      · simp only [parentListEmptyLoop]
        rw [if_pos hne]
        simp only [Bool.false_eq_true, false_iff]
        intro h
        have hde : DictEntryEmpty d := h d (List.mem_cons_self _ _)
        rw [← parentItemNonEmpty_false_iff] at hde
        rw [hde] at hne
        exact Bool.noConfusion hne
      · have hde : DictEntryEmpty d :=
          (parentItemNonEmpty_false_iff d).mp (Bool.eq_false_iff.mpr hne)
        simp only [parentListEmptyLoop]
        rw [if_neg hne, ih]
        constructor
        · intro h d' hd'
          rcases List.mem_cons.mp hd' with heq | hmem
          · have hdd : d' = d := by injection heq
            rw [hdd]; exact hde
          · exact h d' hmem
        · intro h d' hd'
          exact h d' (List.mem_cons_of_mem _ hd')
    all_goals
      simp only [parentListEmptyLoop]
      rw [ih]
      constructor
      · intro h d' hd'
        rcases List.mem_cons.mp hd' with heq | hmem
        · exact PyValue.noConfusion heq
        · exact h d' hmem
      · intro h d' hd'
        exact h d' (List.mem_cons_of_mem _ hd')

/-- The status check of the source agrees with the claim-side reading. -/
theorem statusMatch_iff (fields : List (String × PyValue)) (sf ts : String) :
    statusMatch fields sf ts = true ↔ SpecStatusMatch fields sf ts := by
  unfold statusMatch SpecStatusMatch
  cases h : lookupKey fields sf with
  | none => simp
  | some v =>
    cases v with
    | none => simp
    | bool b => simp
    | int n => simp
    | str s => simp
    | dict d => simp
    | list xs =>
      have h1 : ((xs.map pyStr).contains ts = true) ↔ ts ∈ xs.map pyStr :=
        List.elem_iff
      rw [h1, List.mem_map]

/-- The parent-emptiness check of the source agrees with the claim-side
reading. -/
theorem parentEmpty_iff (fields : List (String × PyValue)) (pf : String) :
    parentEmpty fields pf = true ↔ SpecParentEmpty fields pf := by
  unfold parentEmpty SpecParentEmpty
  cases h : lookupKey fields pf with
  | none => simp
  | some v =>
    cases v with
    | none => simp
    | bool b => simp
    | int n => simp
    | str s => simp
    | dict d => simp
    | list xs => exact parentListEmptyLoop_iff xs

/-- A row with an empty fields dict never satisfies the claim-side status
match. -/
theorem specStatusMatch_fields_ne_nil (fields : List (String × PyValue))
    (sf ts : String) (h : SpecStatusMatch fields sf ts) : fields ≠ [] := by
  intro hnil
  rw [hnil] at h
  simp [SpecStatusMatch, lookupKey, List.find?] at h

/-- C5: a row is selected as a candidate main record by
`FeishuBitableMonitor.get_records_by_status` if and only if its status-field
value matches the target status (membership when the value is a list) and
its parent reference is empty in the sense of the claim: field absent,
null, empty string or empty list, or a list whose dict items all have empty
`record_ids` and empty `text`. -/
theorem candidate_main_iff (row : RawRow) (sf ts pf : String) :
    isCandidateMain row sf ts pf = true ↔
      SpecStatusMatch row.fields sf ts ∧ SpecParentEmpty row.fields pf := by
  unfold isCandidateMain
  rw [Bool.and_eq_true, Bool.and_eq_true]
  constructor
  · rintro ⟨⟨-, hs⟩, hp⟩
    exact ⟨(statusMatch_iff _ _ _).mp hs, (parentEmpty_iff _ _).mp hp⟩
  · rintro ⟨hs, hp⟩
    refine ⟨⟨?_, (statusMatch_iff _ _ _).mpr hs⟩, (parentEmpty_iff _ _).mpr hp⟩
    have hne := specStatusMatch_fields_ne_nil _ _ _ hs
    cases hf : row.fields with
    | nil => exact absurd hf hne
    | cons a l => simp

/-- Example main-record row: status 提审中, parent field holding one dict
item with empty record_ids and empty text. -/
def exampleMainRow : RawRow :=
  ⟨"recMain",
   [("包状态", .str "提审中"),
    ("父记录",
     .list [.dict [("record_ids", .list []), ("text", .str "")]])]⟩

/-- Witness for C5: the example row is selected, and the claim-side
characterization holds of it. -/
theorem candidate_main_iff_witness :
    SpecStatusMatch exampleMainRow.fields "包状态" "提审中" ∧
      SpecParentEmpty exampleMainRow.fields "父记录" :=
  (candidate_main_iff exampleMainRow "包状态" "提审中" "父记录").mp (by rfl)

/-- Once the scan holds a candidate at the maximal time, no element bounded
by that time replaces it. -/
theorem foldl_latest_step_stay (l : List ApplePackageRecord) (c : ApplePackageRecord)
    (t : Int) (h : ∀ x ∈ l, subD x ≤ t) :
    l.foldl latest_step (some c, t) = (some c, t) := by
  induction l with
  | nil => rfl
  | cons y ys ih =>
    have hy : subD y ≤ t := h y (List.mem_cons_self _ _)
    rw [List.foldl_cons]
    have hstep : latest_step (some c, t) y = (some c, t) := by
      cases hst : y.submission_time with
      | none => simp [latest_step, hst]
      | some s =>
        have hs : s ≤ t := by
          rwa [show subD y = s from by simp [subD, hst]] at hy
        simp only [latest_step, hst]
        rw [if_neg]
        rintro ⟨-, hlt⟩
        exact absurd hlt (not_lt.mpr hs)
    rw [hstep]
    exact ih (fun x hx => h x (List.mem_cons_of_mem _ hx))

/-- While every element stays strictly below `t`, the running maximum stays
strictly below `t`. -/
theorem foldl_latest_step_below (l : List ApplePackageRecord) (t : Int) :
    ∀ acc : Option ApplePackageRecord × Int, (∀ x ∈ l, subD x < t) → acc.2 < t →
      (l.foldl latest_step acc).2 < t := by
  induction l with
  | nil =>
    intro acc _ hacc
    exact hacc
  | cons y ys ih =>
    intro acc hl hacc
    rw [List.foldl_cons]
    apply ih _ (fun x hx => hl x (List.mem_cons_of_mem _ hx))
    cases hst : y.submission_time with
    | none => simpa [latest_step, hst] using hacc
    | some s =>
      simp only [latest_step, hst]
      by_cases hc : s ≠ 0 ∧ acc.2 < s
      · rw [if_pos hc]
        have hsy : s < t := by
          have h2 := hl y (List.mem_cons_self _ _)
          rwa [show subD y = s from by simp [subD, hst]] at h2
        exact hsy
      · rw [if_neg hc]
        exact hacc

/-- If `c` is the unique element at the strictly maximal positive time `t`,
the scan ends holding `(c, t)` from any accumulator still below `t`. -/
theorem foldl_latest_step_unique_max (l : List ApplePackageRecord)
    (c : ApplePackageRecord) (t : Int) (hst : c.submission_time = some t)
    (hpos : 0 < t) :
    ∀ acc : Option ApplePackageRecord × Int, acc.2 < t → c ∈ l →
      (∀ x ∈ l, subD x < t ∨ x = c) →
      l.foldl latest_step acc = (some c, t) := by
  induction l with
  | nil =>
    intro acc _ hmem _
    cases hmem
  | cons y ys ih =>
    intro acc hacc hmem hall
    rw [List.foldl_cons]
    by_cases hyc : y = c
    · have hstep : latest_step acc y = (some c, t) := by
        simp only [hyc, latest_step, hst]
        rw [if_pos ⟨by omega, hacc⟩]
      rw [hstep]
      apply foldl_latest_step_stay
      intro x hx
      rcases hall x (List.mem_cons_of_mem _ hx) with hlt | heq
      · exact le_of_lt hlt
      · rw [heq]
        simp [subD, hst]
    · have hmem2 : c ∈ ys := by
        rcases List.mem_cons.mp hmem with h | h
        · exact absurd h.symm hyc
        · exact h
      have hylt : subD y < t := by
        rcases hall y (List.mem_cons_self _ _) with h | h
        · exact h
        · exact absurd h hyc
      have hacc2 : (latest_step acc y).2 < t := by
        cases hys : y.submission_time with
        | none => simpa [latest_step, hys] using hacc
        | some s =>
          simp only [latest_step, hys]
          by_cases hc : s ≠ 0 ∧ acc.2 < s
          · rw [if_pos hc]
            exact (by rwa [show subD y = s from by simp [subD, hys]] at hylt : s < t)
          · rw [if_neg hc]
            exact hacc
      exact ih _ hacc2 hmem2 (fun x hx => hall x (List.mem_cons_of_mem _ hx))

/-- With no positive submission time in sight, the scan never picks a
child. -/
theorem foldl_latest_step_none (l : List ApplePackageRecord)
    (h : ∀ x ∈ l, subD x ≤ 0) :
    l.foldl latest_step (none, 0) = (none, 0) := by
  induction l with
  | nil => rfl
  | cons y ys ih =>
    rw [List.foldl_cons]
    have hstep : latest_step ((none : Option ApplePackageRecord), (0 : Int)) y
        = (none, 0) := by
      cases hys : y.submission_time with
      | none => simp [latest_step, hys]
      | some s =>
        have hs : s ≤ 0 := by
          have hy := h y (List.mem_cons_self _ _)
          rwa [show subD y = s from by simp [subD, hys]] at hy
        simp only [latest_step, hys]
        rw [if_neg]
        rintro ⟨-, hlt⟩
        exact absurd hlt (not_lt.mpr hs)
    rw [hstep]
    exact ih (fun x hx => h x (List.mem_cons_of_mem _ hx))

/-- The first element reaching the maximal positive time `t` wins the scan:
everything before it is strictly below `t`, everything after it at most
`t`. -/
theorem foldl_latest_step_first_max (l₁ l₂ : List ApplePackageRecord)
    (c : ApplePackageRecord) (t : Int) (hst : c.submission_time = some t)
    (hpos : 0 < t) (h1 : ∀ x ∈ l₁, subD x < t) (h2 : ∀ x ∈ l₂, subD x ≤ t) :
    (l₁ ++ c :: l₂).foldl latest_step (none, 0) = (some c, t) := by
  rw [List.foldl_append]
  have hb : (l₁.foldl latest_step ((none : Option ApplePackageRecord), (0 : Int))).2 < t :=
    foldl_latest_step_below l₁ t _ h1 hpos
  rw [List.foldl_cons]
  have hstep : latest_step (l₁.foldl latest_step (none, 0)) c = (some c, t) := by
    simp only [latest_step, hst]
    rw [if_pos ⟨by omega, hb⟩]
  rw [hstep]
  exact foldl_latest_step_stay l₂ c t h2

/-- Reading off `get_latest_version` once the scan result is known: the
selected child version if truthy, else the version of the record itself. -/
theorem get_latest_version_of_fold (r c : ApplePackageRecord) (t : Int)
    (hne : r.children ≠ [])
    (hfold : r.children.foldl latest_step (none, 0) = (some c, t)) :
    get_latest_version r =
      if pyTruthyOptStr c.version then c.version else r.version := by
  unfold get_latest_version
  rw [if_neg (by simpa [List.isEmpty_iff] using hne), hfold]
  cases hv : c.version with
  | none => simp [pyTruthyOptStr, hv]
  | some v =>
    by_cases hv0 : v = ""
    · subst hv0
      simp [pyTruthyOptStr, hv]
    · simp [pyTruthyOptStr, hv, hv0]

/-- Reading off `get_latest_version` when the scan finds nothing. -/
theorem get_latest_version_of_fold_none (r : ApplePackageRecord)
    (hne : r.children ≠ [])
    (hfold : r.children.foldl latest_step (none, 0) = (none, 0)) :
    get_latest_version r = r.version := by
  unfold get_latest_version
  rw [if_neg (by simpa [List.isEmpty_iff] using hne), hfold]

/-- C2 (amended): with non-empty children, the scan can only select a child
with a positive submission time; if a unique child carries the strictly
maximal positive time, the result is that child version when truthy and
the record version otherwise; with no positive time at all the record
version is returned; and the outcome is invariant under permuting the
children. -/
theorem latest_version_unique_max (r c : ApplePackageRecord) (t : Int) :
    (r.children ≠ [] → c ∈ r.children → c.submission_time = some t → 0 < t →
      (∀ x ∈ r.children, subD x < t ∨ x = c) →
      get_latest_version r =
        if pyTruthyOptStr c.version then c.version else r.version) ∧
    (r.children ≠ [] → (∀ x ∈ r.children, subD x ≤ 0) →
      get_latest_version r = r.version) ∧
    (∀ r' : ApplePackageRecord, r'.version = r.version →
      r'.children.Perm r.children →
      c ∈ r.children → c.submission_time = some t → 0 < t →
      (∀ x ∈ r.children, subD x < t ∨ x = c) →
      get_latest_version r' = get_latest_version r) := by
  refine ⟨?_, ?_, ?_⟩
  · intro hne hmem hst hpos hall
    exact get_latest_version_of_fold r c t hne
      (foldl_latest_step_unique_max r.children c t hst hpos (none, 0) hpos hmem hall)
  · intro hne hall
    exact get_latest_version_of_fold_none r hne
      (foldl_latest_step_none r.children hall)
  · intro r' hver hperm hmem hst hpos hall
    have hne : r.children ≠ [] := fun h => by
      rw [h] at hmem
      cases hmem
    have hne' : r'.children ≠ [] := fun h => by
      rw [h] at hperm
      exact hne (List.Perm.nil_eq hperm).symm
    have hmem' : c ∈ r'.children := hperm.mem_iff.mpr hmem
    have hall' : ∀ x ∈ r'.children, subD x < t ∨ x = c :=
      fun x hx => hall x (hperm.mem_iff.mp hx)
    have e1 := get_latest_version_of_fold r c t hne
      (foldl_latest_step_unique_max r.children c t hst hpos (none, 0) hpos hmem hall)
    have e2 := get_latest_version_of_fold r' c t hne'
      (foldl_latest_step_unique_max r'.children c t hst hpos (none, 0) hpos hmem' hall')
    rw [e1, e2, hver]

/-- The single child of the C2 counterexample record: submission time -5
(non-null and non-zero, hence eligible in the claim reading), version
2.0. -/
def cexChildC2 : ApplePackageRecord :=
  .mk none none none (some "2.0") none (some (-5)) none (some "recChild") []

/-- The C2 counterexample record: own version 1.0, a single eligible child
whose version is 2.0. -/
def cexRecC2 : ApplePackageRecord :=
  .mk (some 1) none none (some "1.0") none none none (some "recMain") [cexChildC2]

/-- Counterexample to C2 as stated: the unique child has a non-null,
non-zero submission time, so the claim demands its version 2.0; the code
returns the record version 1.0, because the scan only admits positive
submission times. -/
theorem latest_version_unique_max_counterexample :
    cexRecC2.children = [cexChildC2] ∧
    cexChildC2.submission_time = some (-5) ∧
    ((-5 : Int) ≠ 0) ∧
    cexChildC2.version = some "2.0" ∧
    get_latest_version cexRecC2 = some "1.0" ∧
    get_latest_version cexRecC2 ≠ cexChildC2.version :=
  ⟨rfl, rfl, by decide, rfl, rfl, by decide⟩

/-- First child of the C2 amended-claim witness record. -/
def wChildC2a : ApplePackageRecord :=
  .mk none none none (some "2.0") none (some 10) none (some "recA") []

/-- Second child of the C2 amended-claim witness record. -/
def wChildC2b : ApplePackageRecord :=
  .mk none none none (some "1.5") none (some 5) none (some "recB") []

/-- The C2 amended-claim witness record. -/
def wRecC2 : ApplePackageRecord :=
  .mk (some 2) none none (some "1.0") none none none (some "recM") [wChildC2a, wChildC2b]

/-- Witness for the amended C2: on a record with children at times 10 and 5,
the result is the version of the unique maximal child. -/
theorem latest_version_unique_max_witness :
    get_latest_version wRecC2 = some "2.0" := by
  have h := (latest_version_unique_max wRecC2 wChildC2a 10).1
    (List.cons_ne_nil _ _) (List.mem_cons_self _ _) rfl (by omega)
    (by
      intro x hx
      rcases List.mem_cons.mp hx with h1 | h1
      · exact Or.inr h1
      · left
        rw [List.mem_singleton] at h1
        subst h1
        decide)
  rw [h]
  rfl

/-- C7 (amended): when the first child attaining the maximal positive
submission time is followed only by children at or below that time (in
particular when further children share the maximal time), the result is
that first child version when truthy and the record version otherwise. -/
theorem latest_version_tie_first (r c : ApplePackageRecord)
    (l₁ l₂ : List ApplePackageRecord) (t : Int)
    (hsplit : r.children = l₁ ++ c :: l₂)
    (hst : c.submission_time = some t) (hpos : 0 < t)
    (hbefore : ∀ x ∈ l₁, subD x < t)
    (hafter : ∀ x ∈ l₂, subD x ≤ t)
    (htie : ∃ x ∈ l₂, x.submission_time = some t) :
    get_latest_version r =
      if pyTruthyOptStr c.version then c.version else r.version := by
  have hne : r.children ≠ [] := by
    rw [hsplit]
    simp
  apply get_latest_version_of_fold r c t hne
  rw [hsplit]
  exact foldl_latest_step_first_max l₁ l₂ c t hst hpos hbefore hafter

/-- First child of the C7 counterexample: maximal submission time 5 shared
with the second child, version absent. -/
def cexChildC7a : ApplePackageRecord :=
  .mk none none none none none (some 5) none (some "recA") []

/-- Second child of the C7 counterexample: same submission time 5, version
2.0. -/
def cexChildC7b : ApplePackageRecord :=
  .mk none none none (some "2.0") none (some 5) none (some "recB") []

/-- The C7 counterexample record: own version 1.0, two children tied at
submission time 5, the first with no version. -/
def cexRecC7 : ApplePackageRecord :=
  .mk (some 3) none none (some "1.0") none none none (some "recM")
    [cexChildC7a, cexChildC7b]

/-- Counterexample to C7 as stated: two eligible children share the maximal
submission time, so the claim demands the version of the first one, which
is None; the code returns the record version 1.0 because the selected
child version is falsy. -/
theorem latest_version_tie_first_counterexample :
    cexRecC7.children = [cexChildC7a, cexChildC7b] ∧
    cexChildC7a.submission_time = some 5 ∧
    cexChildC7b.submission_time = some 5 ∧
    cexChildC7a.version = none ∧
    get_latest_version cexRecC7 = some "1.0" ∧
    get_latest_version cexRecC7 ≠ cexChildC7a.version :=
  ⟨rfl, rfl, rfl, rfl, rfl, by decide⟩

/-- First child of the C7 amended-claim witness record: tied at time 7 with
the second child, truthy version 3.1. -/
def wChildC7a : ApplePackageRecord :=
  .mk none none none (some "3.1") none (some 7) none (some "recA") []

/-- Second child of the C7 amended-claim witness record. -/
def wChildC7b : ApplePackageRecord :=
  .mk none none none (some "3.2") none (some 7) none (some "recB") []

/-- The C7 amended-claim witness record. -/
def wRecC7 : ApplePackageRecord :=
  .mk (some 4) none none (some "1.0") none none none (some "recM")
    [wChildC7a, wChildC7b]

/-- Witness for the amended C7: two children tied at time 7, the first one
with a truthy version wins. -/
theorem latest_version_tie_first_witness :
    get_latest_version wRecC7 = some "3.1" := by
  have h := latest_version_tie_first wRecC7 wChildC7a [] [wChildC7b] 7 rfl rfl
    (by omega)
    (by intro x hx; cases hx)
    (by
      intro x hx
      rw [List.mem_singleton] at hx
      subst hx
      decide)
    ⟨wChildC7b, List.mem_singleton.mpr rfl, rfl⟩
  rw [h]
  rfl

/-- C1: on a release match, when the scan of the children finds a child at
the resolved latest version (`find?` returns the first one), that child is
written status 已发布 plus 过审时间, and the main record is written status
已发布 only — its fields dict does not carry the 过审时间 key; when the
record has no children, the main record receives both keys in one write. -/
theorem update_app_status_release_writes (r c : ApplePackageRecord)
    (lv : String) (ts : Int) :
    (r.children ≠ [] →
      r.children.find? (fun x => x.version == some lv) = some c →
      c ∈ r.children ∧ c.version = some lv ∧
      update_app_status r lv ts =
        [(c.record_id,
          [("包状态", FieldValue.str "已发布"), ("过审时间", FieldValue.int ts)]),
         (r.record_id, [("包状态", FieldValue.str "已发布")])] ∧
      fields_set_key [("包状态", FieldValue.str "已发布")] "过审时间" = false) ∧
    (r.children = [] →
      update_app_status r lv ts =
        [(r.record_id,
          [("包状态", FieldValue.str "已发布"), ("过审时间", FieldValue.int ts)])]) := by
  constructor
  · intro hne hfind
    refine ⟨List.mem_of_find?_eq_some hfind, ?_, ?_, rfl⟩
    · have hp := List.find?_some hfind
      exact eq_of_beq hp
    · simp only [update_app_status]
      rw [if_neg (by simpa [List.isEmpty_iff] using hne), hfind]
  · intro hnil
    simp [update_app_status, hnil]

/-- Child of the C1 witness record, at the matching version 1.1. -/
def wChildC1 : ApplePackageRecord :=
  .mk none none none (some "1.1") none (some 20) none (some "recC") []

/-- C1 witness record with one child. -/
def wRecC1 : ApplePackageRecord :=
  .mk (some 5) none none (some "1.0") none none none (some "recM1") [wChildC1]

/-- C1 witness record without children. -/
def wRecC1n : ApplePackageRecord :=
  .mk (some 6) none none (some "1.0") none none none (some "recM2") []

/-- Witness for C1: on the one-child record the child gets both fields and
the main record status only; on the childless record the main record gets
both fields. -/
theorem update_app_status_release_writes_witness :
    update_app_status wRecC1 "1.1" 777 =
      [(some "recC",
        [("包状态", FieldValue.str "已发布"), ("过审时间", FieldValue.int 777)]),
       (some "recM1", [("包状态", FieldValue.str "已发布")])] ∧
    update_app_status wRecC1n "1.0" 777 =
      [(some "recM2",
        [("包状态", FieldValue.str "已发布"), ("过审时间", FieldValue.int 777)])] := by
  constructor
  · exact ((update_app_status_release_writes wRecC1 wChildC1 "1.1" 777).1
      (List.cons_ne_nil _ _) rfl).2.2.1
  · exact (update_app_status_release_writes wRecC1n wChildC1 "1.0" 777).2 rfl

/-- C10: with non-empty children but no child at the resolved latest
version, the only write is status 已发布 to the main record, and no write
of the run sets the 过审时间 key. -/
theorem update_app_status_no_version_match (r : ApplePackageRecord)
    (lv : String) (ts : Int) (hne : r.children ≠ [])
    (hnom : ∀ x ∈ r.children, x.version ≠ some lv) :
    update_app_status r lv ts =
      [(r.record_id, [("包状态", FieldValue.str "已发布")])] ∧
    ∀ w ∈ update_app_status r lv ts, fields_set_key w.2 "过审时间" = false := by
  have hfind : r.children.find? (fun x => x.version == some lv) = none := by
    rw [List.find?_eq_none]
    intro x hx hb
    exact hnom x hx (eq_of_beq hb)
  have heq : update_app_status r lv ts =
      [(r.record_id, [("包状态", FieldValue.str "已发布")])] := by
    simp only [update_app_status]
    rw [if_neg (by simpa [List.isEmpty_iff] using hne), hfind]
  refine ⟨heq, ?_⟩
  intro w hw
  rw [heq, List.mem_singleton] at hw
  subst hw
  rfl

/-- Child of the C10 witness record, at version 9.9, away from the resolved
latest 1.0. -/
def wChildC10 : ApplePackageRecord :=
  .mk none none none (some "9.9") none (some 20) none (some "recC") []

/-- C10 witness record. -/
def wRecC10 : ApplePackageRecord :=
  .mk (some 7) none none (some "1.0") none none none (some "recM3") [wChildC10]

/-- Witness for C10: the only write is status-only to the main record. -/
theorem update_app_status_no_version_match_witness :
    update_app_status wRecC10 "1.0" 777 =
      [(some "recM3", [("包状态", FieldValue.str "已发布")])] :=
  (update_app_status_no_version_match wRecC10 "1.0" 777 (List.cons_ne_nil _ _)
    (by
      intro x hx
      have hx2 : x ∈ [wChildC10] := hx
      rw [List.mem_singleton] at hx2
      subst hx2
      decide)).1

/-- C3: a record without `apple_id` is skipped — no write, no notification —
whatever the lookup result, including a fully matching one; likewise a
record whose resolved latest version is absent. -/
theorem processRecord_skip_no_apple_id (r : ApplePackageRecord)
    (st : Option AppleAppStatus) (ts : Int) :
    (r.apple_id = none →
      processRecord r st ts = ⟨.skip, [], false⟩) ∧
    (get_latest_version r = none →
      processRecord r st ts = ⟨.skip, [], false⟩) := by
  constructor
  · intro h
    simp [processRecord, h, pyTruthyOptInt]
  · intro h
    by_cases ha : pyTruthyOptInt r.apple_id
    · simp [processRecord, ha, h]
    · simp [processRecord, ha]

/-- C3 witness record: no apple id, own version 1.0. -/
def wRecC3 : ApplePackageRecord :=
  .mk none none none (some "1.0") none none none (some "recM4") []

/-- Witness for C3: skipped even though the supplied external status is
online at the exactly matching version. -/
theorem processRecord_skip_no_apple_id_witness :
    processRecord wRecC3
        (some ⟨true, some "1.0", none, none, none, none, none⟩) 99 =
      ⟨.skip, [], false⟩ :=
  (processRecord_skip_no_apple_id wRecC3
    (some ⟨true, some "1.0", none, none, none, none, none⟩) 99).1 rfl

/-- C4 counterexample record: `apple_id` present with value 0, resolved
latest version 1.0. -/
def cexRecC4 : ApplePackageRecord :=
  .mk (some 0) none none (some "1.0") none none none (some "recM5") []

/-- Counterexample to C4 as stated: this record has an `apple_id` (value 0)
and a resolved latest version, and the lookup failed, yet the decision is
skip — the early `continue` fires on the falsy 0 — not await-release. -/
theorem processRecord_await_counterexample :
    cexRecC4.apple_id = some 0 ∧
    get_latest_version cexRecC4 = some "1.0" ∧
    processRecord cexRecC4 none 0 = ⟨.skip, [], false⟩ ∧
    (RecordOutcome.mk .skip [] false).decision ≠ ReconciliationDecision.awaitRelease :=
  ⟨rfl, rfl, rfl, by decide⟩

/-- C4 (amended): for a record whose `apple_id` is truthy (present and
non-zero) and whose resolved latest version is truthy (present and
non-empty), a failed lookup or an offline answer yields await-release — no
write, no notification — and the loop goes on to the remaining records. -/
theorem processRecord_await_release (r : ApplePackageRecord)
    (st : Option AppleAppStatus) (ts : Int)
    (h1 : pyTruthyOptInt r.apple_id = true)
    (h2 : pyTruthyOptStr (get_latest_version r) = true)
    (h3 : st = none ∨ ∃ s, st = some s ∧ s.is_online = false) :
    processRecord r st ts = ⟨.awaitRelease, [], false⟩ ∧
    ∀ (rest : List ApplePackageRecord)
      (lookup : ApplePackageRecord → Option AppleAppStatus),
      lookup r = st →
      runRecords (r :: rest) lookup ts =
        ⟨.awaitRelease, [], false⟩ :: runRecords rest lookup ts := by
  have hmain : processRecord r st ts = ⟨.awaitRelease, [], false⟩ := by
    cases hv : get_latest_version r with
    | none =>
      rw [hv] at h2
      simp [pyTruthyOptStr] at h2
    | some lv =>
      rw [hv] at h2
      have hlv : ¬ lv = "" := by simpa [pyTruthyOptStr] using h2
      rcases h3 with hn | ⟨s, hs, ho⟩
      · subst hn
        simp [processRecord, h1, hv, hlv]
      · subst hs
        simp [processRecord, h1, hv, hlv, ho]
  refine ⟨hmain, ?_⟩
  intro rest lookup hl
  simp only [runRecords, List.map_cons]
  rw [hl, hmain]

/-- C4 witness record: apple id 42, own version 1.0. -/
def wRecC4 : ApplePackageRecord :=
  .mk (some 42) none none (some "1.0") none none none (some "recM6") []

/-- Witness for the amended C4: failed lookup gives await-release and the
loop result for the singleton list. -/
theorem processRecord_await_release_witness :
    processRecord wRecC4 none 11 = ⟨.awaitRelease, [], false⟩ ∧
    runRecords [wRecC4] (fun _ => none) 11 = [⟨.awaitRelease, [], false⟩] := by
  have h := processRecord_await_release wRecC4 none 11 rfl rfl (Or.inl rfl)
  refine ⟨h.1, ?_⟩
  rw [h.2 [] (fun _ => none) rfl]
  rfl

/-- Counterexample to C6 as stated: with `mention_all` set and a non-empty
`mention_user_ids`, the built content carries the at-all mention and a user
mention at once — the two prefix blocks are independent, not exclusive. -/
theorem message_mentions_counterexample :
    ContentPart.at "all" ∈ message_content_parts "m" true (some ["u1"]) ∧
    ContentPart.at "u1" ∈ message_content_parts "m" true (some ["u1"]) := by
  decide

/-- C6 (amended): the built content is the at-all block when `mention_all`
is set, followed by one at/space pair per entry of `mention_user_ids`,
followed by the body; with neither configured the content is the bare
body.  The at-all block and the user mentions are cumulative, not
exclusive. -/
theorem message_mentions_structure (msg : String) (ma : Bool)
    (ids : Option (List String)) :
    message_content_parts msg ma ids =
      (if ma then [ContentPart.at "all", ContentPart.text " "] else []) ++
        (ids.getD []).flatMap (fun u => [ContentPart.at u, ContentPart.text " "]) ++
        [ContentPart.text msg] ∧
    (ma = false → ids = none ∨ ids = some [] →
      message_content_parts msg ma ids = [ContentPart.text msg]) := by
  constructor
  · unfold message_content_parts
    cases ids with
    | none => simp
    | some l =>
      cases l with
      | nil => simp
      | cons a as => simp
  · intro hma hids
    subst hma
    rcases hids with h | h <;> subst h <;> simp [message_content_parts]

/-- Witness for the amended C6: with neither mention option set the content
is the bare body. -/
theorem message_mentions_structure_witness :
    message_content_parts "m" false none = [ContentPart.text "m"] :=
  (message_mentions_structure "m" false none).2 rfl (Or.inl rfl)

/-- Spec-side reading of claims C8 and C9: a parent-reference item points at
the main record `mid` when it is a dict whose `record_ids` value (default
empty list) is truthy and contains `mid`. -/
def SpecPointsToItem (x : PyValue) (mid : String) : Prop :=
  match x with
  | .dict d =>
      pyTruthy ((lookupKey d "record_ids").getD (.list [])) = true ∧
      pyContains ((lookupKey d "record_ids").getD (.list [])) mid = true
  | _ => False

/-- Spec-side reading of claims C8 and C9: the row's parent field holds a
list one of whose items points at `mid`. -/
def SpecPointsTo (fields : List (String × PyValue)) (parent_field mid : String) :
    Prop :=
  ∃ xs, lookupKey fields parent_field = some (.list xs) ∧
    ∃ x ∈ xs, SpecPointsToItem x mid

/-- Spec-side reading of claim C8: the row's status value is the target
status 提审中 or the release status 已发布 (membership for a list-valued
status, string coercion as in the source). -/
def SpecAllowedStatus (fields : List (String × PyValue)) (status_field : String) :
    Prop :=
  match lookupKey fields status_field with
  | Option.none => False
  | some (.list xs) => ∃ x ∈ xs, pyStr x ∈ valid_child_statuses
  | some v => pyStr v ∈ valid_child_statuses

/-- A successful strict item scan exhibits a pointing item and a valid
status. -/
theorem strictItems_true (fields : List (String × PyValue)) (sf mid : String)
    (xs : List PyValue) (h : strictItems fields sf mid xs = true) :
    (∃ x ∈ xs, SpecPointsToItem x mid) ∧ strictStatusValid fields sf = true := by
  induction xs with
  | nil => exact absurd h (by simp [strictItems])
  | cons y ys ih =>
    cases y
    case dict d =>
      by_cases hc :
          pyTruthy ((lookupKey d "record_ids").getD (.list [])) &&
            pyContains ((lookupKey d "record_ids").getD (.list [])) mid
      · rw [show strictItems fields sf mid (PyValue.dict d :: ys) =
              strictStatusValid fields sf from by
            simp only [strictItems]
            rw [if_pos hc]] at h
        rw [Bool.and_eq_true] at hc
        exact ⟨⟨.dict d, List.mem_cons_self _ _, hc.1, hc.2⟩, h⟩
      · rw [show strictItems fields sf mid (PyValue.dict d :: ys) =
              strictItems fields sf mid ys from by
            simp only [strictItems]
            rw [if_neg hc]] at h
        obtain ⟨⟨x, hx, hp⟩, hs⟩ := ih h
        exact ⟨⟨x, List.mem_cons_of_mem _ hx, hp⟩, hs⟩
    all_goals
      obtain ⟨⟨x, hx, hp⟩, hs⟩ := ih (by simpa [strictItems] using h)
      exact ⟨⟨x, List.mem_cons_of_mem _ hx, hp⟩, hs⟩

/-- A row attached by the strict variant has a list-valued parent field
whose item scan succeeds. -/
theorem strictAttach_true (r : RawRow) (sf pf mid : String)
    (h : strictAttach r sf pf mid = true) :
    ∃ xs, lookupKey r.fields pf = some (.list xs) ∧
      strictItems r.fields sf mid xs = true := by
  unfold strictAttach at h
  cases hlk : lookupKey r.fields pf with
  | none =>
    rw [hlk] at h
    simp at h
  | some v =>
    cases v with
    | list xs =>
      rw [hlk] at h
      exact ⟨xs, rfl, by simpa using h⟩
    | none => rw [hlk] at h; simp at h
    | bool b => rw [hlk] at h; simp at h
    | int n => rw [hlk] at h; simp at h
    | str s => rw [hlk] at h; simp at h
    | dict d => rw [hlk] at h; simp at h

/-- A valid strict status exhibits the claim-side allow-list property. -/
theorem strictStatusValid_spec (fields : List (String × PyValue)) (sf : String)
    (h : strictStatusValid fields sf = true) : SpecAllowedStatus fields sf := by
  unfold strictStatusValid at h
  unfold SpecAllowedStatus
  cases hlk : lookupKey fields sf with
  | none =>
    rw [hlk] at h
    simp at h
  | some v =>
    rw [hlk] at h
    cases v with
    | list xs =>
      simp only [List.any_eq_true] at h
      obtain ⟨s, hs, hin⟩ := h
      obtain ⟨x, hx, rfl⟩ := List.mem_map.mp hs
      exact ⟨x, hx, by simpa using hin⟩
    | none =>
      have h2 : ¬pyStr PyValue.none = "" ∧ pyStr PyValue.none ∈ valid_child_statuses := by
        simpa using h
      exact h2.2
    | bool b =>
      have h2 : ¬pyStr (PyValue.bool b) = "" ∧
          pyStr (PyValue.bool b) ∈ valid_child_statuses := by
        simpa using h
      exact h2.2
    | int n =>
      have h2 : ¬pyStr (PyValue.int n) = "" ∧
          pyStr (PyValue.int n) ∈ valid_child_statuses := by
        simpa using h
      exact h2.2
    | str s =>
      have h2 : ¬pyStr (PyValue.str s) = "" ∧
          pyStr (PyValue.str s) ∈ valid_child_statuses := by
        simpa using h
      exact h2.2
    | dict d =>
      have h2 : ¬pyStr (PyValue.dict d) = "" ∧
          pyStr (PyValue.dict d) ∈ valid_child_statuses := by
        simpa using h
      exact h2.2

/-- C8: a row attached as a child by the stricter resolver variant points at
the main record through its parent reference and carries a status in the
allow-list 提审中/已发布; a row whose status is neither is not attached. -/
theorem strict_child_only_if (rows : List RawRow) (sf pf mid : String)
    (r : RawRow) (hmem : r ∈ strictChildrenOf rows sf pf mid) :
    SpecPointsTo r.fields pf mid ∧ SpecAllowedStatus r.fields sf := by
  have hat : strictAttach r sf pf mid = true := (List.mem_filter.mp hmem).2
  obtain ⟨xs, hlk, hit⟩ := strictAttach_true r sf pf mid hat
  obtain ⟨⟨x, hx, hp⟩, hs⟩ := strictItems_true r.fields sf mid xs hit
  exact ⟨⟨xs, hlk, x, hx, hp⟩, strictStatusValid_spec r.fields sf hs⟩

/-- C8 witness row: a released child pointing at the main record A. -/
def wStrictChild : RawRow :=
  ⟨"B",
   [("包状态", .str "已发布"),
    ("父记录", .list [.dict [("record_ids", .list [.str "A"])]])]⟩

/-- Witness for C8: the released child row attached by the strict variant
satisfies the claim-side characterization. -/
theorem strict_child_only_if_witness :
    SpecPointsTo wStrictChild.fields "父记录" "A" ∧
      SpecAllowedStatus wStrictChild.fields "包状态" := by
  have hmem : wStrictChild ∈ strictChildrenOf [wStrictChild] "包状态" "父记录" "A" := by
    have heq : strictChildrenOf [wStrictChild] "包状态" "父记录" "A" = [wStrictChild] :=
      rfl
    rw [heq]
    exact List.mem_singleton.mpr rfl
  exact strict_child_only_if [wStrictChild] "包状态" "父记录" "A" wStrictChild hmem

/-- A successful item scan of the plain resolver exhibits a dict item with a
truthy `record_ids` value containing the main record id. -/
theorem itemsPointTo_true (mid : String) (xs : List PyValue)
    (h : itemsPointTo mid xs = true) :
    ∃ d, PyValue.dict d ∈ xs ∧
      pyTruthy ((lookupKey d "record_ids").getD (.list [])) = true ∧
      pyContains ((lookupKey d "record_ids").getD (.list [])) mid = true := by
  induction xs with
  | nil => exact absurd h (by simp [itemsPointTo])
  | cons y ys ih =>
    cases y
    case dict d =>
      by_cases hc :
          pyTruthy ((lookupKey d "record_ids").getD (.list [])) &&
            pyContains ((lookupKey d "record_ids").getD (.list [])) mid
      · rw [Bool.and_eq_true] at hc
        exact ⟨d, List.mem_cons_self _ _, hc.1, hc.2⟩
      · rw [show itemsPointTo mid (PyValue.dict d :: ys) = itemsPointTo mid ys from by
            simp only [itemsPointTo]
            rw [if_neg hc]] at h
        obtain ⟨d2, hd2, ht, hcont⟩ := ih h
        exact ⟨d2, List.mem_cons_of_mem _ hd2, ht, hcont⟩
    all_goals
      obtain ⟨d2, hd2, ht, hcont⟩ := ih (by simpa [itemsPointTo] using h)
      exact ⟨d2, List.mem_cons_of_mem _ hd2, ht, hcont⟩

/-- A row attached by the plain resolver has a list-valued parent field
whose item scan succeeds. -/
theorem rowPointsTo_true (fields : List (String × PyValue)) (pf mid : String)
    (h : rowPointsTo fields pf mid = true) :
    ∃ xs, lookupKey fields pf = some (.list xs) ∧ itemsPointTo mid xs = true := by
  unfold rowPointsTo at h
  cases hlk : lookupKey fields pf with
  | none =>
    rw [hlk] at h
    simp at h
  | some v =>
    cases v with
    | list xs =>
      rw [hlk] at h
      exact ⟨xs, rfl, by simpa using h⟩
    | none => rw [hlk] at h; simp at h
    | bool b => rw [hlk] at h; simp at h
    | int n => rw [hlk] at h; simp at h
    | str s => rw [hlk] at h; simp at h
    | dict d => rw [hlk] at h; simp at h

/-- C9: over a row set with pairwise distinct record ids, every row attached
as a child of a selected main record has an id different from that main
record id — a record is never its own child, because a truthy
parent-reference would have disqualified it as a main record. -/
theorem no_self_child (rows : List RawRow) (sf ts pf : String)
    (hnodup : (rows.map RawRow.id).Nodup)
    (m : RawRow) (hm : m ∈ rows)
    (hmain : isCandidateMain m sf ts pf = true)
    (c : RawRow) (hc : c ∈ childrenOf rows pf m.id) :
    c.id ≠ m.id := by
  intro heq
  have hcrows : c ∈ rows := List.mem_of_mem_filter hc
  have hcm : c = m := List.inj_on_of_nodup_map hnodup hcrows hm heq
  have hpt : rowPointsTo c.fields pf m.id = true := (List.mem_filter.mp hc).2
  rw [hcm] at hpt
  have hpe : parentEmpty m.fields pf = true := by
    unfold isCandidateMain at hmain
    rw [Bool.and_eq_true] at hmain
    exact hmain.2
  obtain ⟨xs, hlk, hit⟩ := rowPointsTo_true m.fields pf m.id hpt
  have hloop : parentListEmptyLoop xs = true := by
    unfold parentEmpty at hpe
    rw [hlk] at hpe
    simpa using hpe
  obtain ⟨d, hd, htruthy, -⟩ := itemsPointTo_true m.id xs hit
  have hde := ((parentListEmptyLoop_iff xs).mp hloop d hd).1
  cases hlk2 : lookupKey d "record_ids" with
  | none =>
    rw [hlk2] at htruthy
    simp [pyTruthy] at htruthy
  | some v =>
    rw [hlk2] at htruthy hde
    rcases hde with h2 | h2
    · exact Option.noConfusion h2
    · rw [show ((some v).getD PyValue.none) = v from rfl] at h2
      rw [show ((some v).getD (PyValue.list [])) = v from rfl] at htruthy
      rw [h2] at htruthy
      exact Bool.noConfusion htruthy

/-- C9 witness main row: in review, no parent field. -/
def wMainRowC9 : RawRow := ⟨"A", [("包状态", .str "提审中")]⟩

/-- C9 witness child row: parent reference pointing at A. -/
def wChildRowC9 : RawRow :=
  ⟨"B",
   [("包状态", .str "提审中"),
    ("父记录", .list [.dict [("record_ids", .list [.str "A"])]])]⟩

/-- Witness for C9 on a concrete two-row table: the attached child B is not
the main record A. -/
theorem no_self_child_witness : RawRow.id wChildRowC9 ≠ RawRow.id wMainRowC9 := by
  have hc : wChildRowC9 ∈ childrenOf [wMainRowC9, wChildRowC9] "父记录"
      (RawRow.id wMainRowC9) := by
    have heq : childrenOf [wMainRowC9, wChildRowC9] "父记录" (RawRow.id wMainRowC9)
        = [wChildRowC9] := rfl
    rw [heq]
    exact List.mem_singleton.mpr rfl
  exact no_self_child [wMainRowC9, wChildRowC9] "包状态" "提审中" "父记录"
    (by decide) wMainRowC9 (List.mem_cons_self _ _) rfl wChildRowC9 hc
